import Mathlib

/-!
MSH2FBX command-line front end (`MSH2FBX/MSH2FBX.cpp`)

A shallow embedding of the helper functions `GetFileName` and
`RemoveFileExtension` and of the body of `main` after command-line parsing,
followed by theorems about the order of the import passes, the resolution of
the `--ignore` names, the animation name override and the lifetime of the
`MSH` documents.

Modelling conventions.

* A `std::string` is a Lean `String`; every Lean `Char` stands for one C++
  `char`.  `string::npos` is `none`.
* The static data members of `Converter` that `main` assigns are the fields of
  the structure `Converter`.  Their values at program start come from
  `Converter.cpp`, which is not part of the translated file, so `main` takes
  them as the parameter `conv0`.
* The collaborators (`Converter::Start`, `Converter::AddMSH`,
  `Converter::Save`, `MSH::Create`, `MSH::ReadFromFile`, `MSH::Destroy`,
  `std::cout`) are recorded as events of a trace, oldest first.  They do not
  assign the static members above.  What they compute is not modelled, with
  one exception: the `bool` returned by `ReadFromFile` is supplied by `Env`.
* `main` is modelled from the line after `CLI11_PARSE`: its inputs are the
  five variables filled in by the command-line parser.
-/

namespace MSH2FBX

/-! ## Strings -/

/-- Index of the last character of the list that satisfies `p`, if any. -/
def lastIndexOf (p : Char → Bool) : List Char → Option Nat
  | [] => none
  | c :: cs =>
    match lastIndexOf p cs with
    | some i => some (i + 1)
    | none => if p c then some 0 else none

/-- The call `s.rfind(c, s.length())`: position of the last occurrence of the
character `c` in `s`. -/
def rfind (s : String) (c : Char) : Option Nat :=
  lastIndexOf (fun x => x == c) s.data

/-- The call `s.find_last_of(chars)`: position of the last character of `s`
that is one of the characters of `chars`. -/
def find_last_of (s : String) (chars : String) : Option Nat :=
  lastIndexOf (fun x => chars.data.contains x) s.data

/-- The call `s.substr(pos, count)` for `pos ≤ s.length()`: at most `count`
characters starting at `pos`.  (For `pos > s.length()` the C++ function throws;
both call sites below pass a position that is at most the length, see
`lastIndexOf_lt`.) -/
def substr (s : String) (pos count : Nat) : String :=
  ⟨(s.data.drop pos).take count⟩

/-- Source function `GetFileName` (lines 29-37). -/
def GetFileName (path : String) : String :=
  let sep := '\\'
  match rfind path sep with
  | some i => substr path (i + 1) (path.length - i)
  | none => ""

/-- Source function `RemoveFileExtension` (lines 39-49). -/
def RemoveFileExtension (fileName : String) : String :=
  match find_last_of fileName "." with
  | none => fileName
  | some lastindex => substr fileName 0 lastindex

/-! ## Types declared outside the translated file -/

/-- Enumeration `EChunkFilter` (declared in `Converter.h`): the three
enumerators that `main` uses. -/
inductive EChunkFilter where
  | None
  | Models
  | Animations
  deriving DecidableEq, Repr

/-- Enumeration `EModelPurpose` (declared in the LibSWBF2 headers): the
enumerators that `main` names in `filterMap`. -/
inductive EModelPurpose where
  | Mesh
  | Mesh_Regular
  | Mesh_Lowrez
  | Mesh_Collision
  | Mesh_VehicleCollision
  | Mesh_ShadowVolume
  | Mesh_TerrainCut
  | Point
  | Point_EmptyTransform
  | Point_DummyRoot
  | Point_HardPoint
  | Skeleton
  | Skeleton_Root
  | Skeleton_BoneRoot
  | Skeleton_BoneLimb
  | Skeleton_BoneEnd
  deriving DecidableEq, Repr

/-- The static data members of class `Converter` that `main` assigns.
`ModelIgnoreFilter` holds the underlying integer of an `EModelPurpose` bit
set. -/
structure Converter where
  ModelIgnoreFilter : Nat
  ChunkFilter : EChunkFilter
  OverrideAnimName : String
  deriving DecidableEq, Repr

/-- An `MSH` object as seen by `main`: the ordinal of the `MSH::Create` call
that made it, the path last passed to its `ReadFromFile`, and what that call
returned. -/
structure MSH where
  handle : Nat
  source : Option String
  readOk : Bool
  deriving DecidableEq, Repr

/-- One call from `main` to a collaborator.  `AddMSH` and `Save` record the
values of the `Converter` statics at the time of the call. -/
inductive Event where
  | Log (msg : String)
  | Start (fbxFileName : String)
  | Create (handle : Nat)
  | ReadFromFile (handle : Nat) (path : String) (result : Bool)
  | AddMSH (msh : MSH) (conv : Converter)
  | Destroy (handle : Nat)
  | Save (conv : Converter)
  deriving DecidableEq, Repr

/-- What `main` takes from outside the translated file. -/
structure Env where
  /-- The underlying integer value of each `EModelPurpose` enumerator. -/
  purposeValue : EModelPurpose → Nat
  /-- The `bool` that `ReadFromFile` returns for a given object and path. -/
  readResult : Nat → String → Bool
  /-- The text of `app.help()`. -/
  help : String

/-- Program state threaded through `main`. -/
structure World where
  conv : Converter
  created : Nat
  trace : List Event
  deriving DecidableEq, Repr

/-! ## Collaborator calls -/

/-- Append one event to the trace. -/
def World.emit (w : World) (e : Event) : World :=
  { w with trace := w.trace ++ [e] }

/-- Source function `Log` (lines 9-17): one line on `std::cout`. -/
def Log (msg : String) (w : World) : World :=
  w.emit (Event.Log msg)

/-- Modelled from the spec: `operator|` on `EModelPurpose` (declared in the
LibSWBF2 headers), the bitwise OR of the underlying integers. -/
def purposeOr (a b : Nat) : Nat := a ||| b

/-- The call `Converter::Start(fbxFileName)`. -/
def Converter.Start (fbxFileName : String) (w : World) : World :=
  w.emit (Event.Start fbxFileName)

/-- The call `Converter::AddMSH(msh)`. -/
def Converter.AddMSH (msh : MSH) (w : World) : World :=
  w.emit (Event.AddMSH msh w.conv)

/-- The call `Converter::Save()`. -/
def Converter.Save (w : World) : World :=
  w.emit (Event.Save w.conv)

/-- The call `MSH::Create()`: a fresh object. -/
def MSH.Create (w : World) : MSH × World :=
  ({ handle := w.created, source := none, readOk := false },
   { w with created := w.created + 1, trace := w.trace ++ [Event.Create w.created] })

/-- The call `msh->ReadFromFile(path)`: returns the parser's result and the
object after the read. -/
def MSH.ReadFromFile (env : Env) (msh : MSH) (path : String) (w : World) :
    Bool × MSH × World :=
  let ok := env.readResult msh.handle path
  (ok, { msh with source := some path, readOk := ok },
   w.emit (Event.ReadFromFile msh.handle path ok))

/-- The call `MSH::Destroy(msh)`. -/
def MSH.Destroy (msh : MSH) (w : World) : World :=
  w.emit (Event.Destroy msh.handle)

/-! ## `main` -/

/-- The local `filterMap` of `main` (lines 69-92), in source order.
`filterMap.find(k)` is `List.lookup k filterMap`. -/
def filterMap : List (String × EModelPurpose) :=
  [ ("Mesh", EModelPurpose.Mesh),
    ("Mesh_Regular", EModelPurpose.Mesh_Regular),
    ("Mesh_Lowrez", EModelPurpose.Mesh_Lowrez),
    ("Mesh_Collision", EModelPurpose.Mesh_Collision),
    ("Mesh_VehicleCollision", EModelPurpose.Mesh_VehicleCollision),
    ("Mesh_ShadowVolume", EModelPurpose.Mesh_ShadowVolume),
    ("Mesh_TerrainCut", EModelPurpose.Mesh_TerrainCut),
    ("Point", EModelPurpose.Point),
    ("Point_EmptyTransform", EModelPurpose.Point_EmptyTransform),
    ("Point_DummyRoot", EModelPurpose.Point_DummyRoot),
    ("Point_HardPoint", EModelPurpose.Point_HardPoint),
    ("Skeleton", EModelPurpose.Skeleton),
    ("Skeleton_Root", EModelPurpose.Skeleton_Root),
    ("Skeleton_BoneRoot", EModelPurpose.Skeleton_BoneRoot),
    ("Skeleton_BoneLimb", EModelPurpose.Skeleton_BoneLimb),
    ("Skeleton_BoneEnd", EModelPurpose.Skeleton_BoneEnd) ]

/-- The loop of lines 127-139 over the `--ignore` names. -/
def main.resolveFilter (env : Env) : List String → World → World
  | [], w => w
  | it :: rest, w =>
    match List.lookup it filterMap with
    | some second =>
      main.resolveFilter env rest
        { w with conv := { w.conv with
            ModelIgnoreFilter := purposeOr w.conv.ModelIgnoreFilter (env.purposeValue second) } }
    | none =>
      main.resolveFilter env rest (Log ("'" ++ it ++ "' is not a valid filter option!") w)

/-- The loop of lines 162-168 over `models`. -/
def main.importModels (env : Env) : List String → World → World
  | [], w => w
  | it :: rest, w =>
    let (msh, w) := MSH.Create w
    let (_, msh, w) := MSH.ReadFromFile env msh it w
    let w := Converter.AddMSH msh w
    let w := MSH.Destroy msh w
    main.importModels env rest w

/-- The loop of lines 172-178 over `files`. -/
def main.importFiles (env : Env) : List String → World → World
  | [], w => w
  | it :: rest, w =>
    let (msh, w) := MSH.Create w
    let (_, msh, w) := MSH.ReadFromFile env msh it w
    let w := Converter.AddMSH msh w
    let w := MSH.Destroy msh w
    main.importFiles env rest w

/-- The loop of lines 182-189 over `animations`. -/
def main.importAnimations (env : Env) : List String → World → World
  | [], w => w
  | it :: rest, w =>
    let (msh, w) := MSH.Create w
    let (_, msh, w) := MSH.ReadFromFile env msh it w
    let w := { w with conv := { w.conv with
                 OverrideAnimName := GetFileName (RemoveFileExtension it) } }
    let w := Converter.AddMSH msh w
    let w := MSH.Destroy msh w
    main.importAnimations env rest w

/-- Lines 141-156: the default for `fbxFileName`. -/
def main.defaultName (files animations models : List String) (fbxFileName : String) : String :=
  if fbxFileName = "" then
    if h : files.length > 0 then
      RemoveFileExtension files[0] ++ ".fbx"
    else if h : models.length > 0 then
      RemoveFileExtension models[0] ++ ".fbx"
    else if h : animations.length > 0 then
      RemoveFileExtension animations[0] ++ ".fbx"
    else fbxFileName
  else fbxFileName

/-- Source function `main`, lines 118-193: the exit code and the final state,
starting with no object created and an empty trace. -/
def main (env : Env) (conv0 : Converter) (files animations models filter : List String)
    (fbxFileName : String) : Int × World :=
  let w : World := { conv := conv0, created := 0, trace := [] }
  if files.length = 0 ∧ animations.length = 0 ∧ models.length = 0 then
    (0, Log env.help w)
  else
    let w := { w with conv := { w.conv with ModelIgnoreFilter := 0 } }
    let w := main.resolveFilter env filter w
    let fbxFileName := main.defaultName files animations models fbxFileName
    let w := Converter.Start fbxFileName w
    let w := { w with conv := { w.conv with ChunkFilter := EChunkFilter.Animations } }
    let w := main.importModels env models w
    let w := { w with conv := { w.conv with ChunkFilter := EChunkFilter.None } }
    let w := main.importFiles env files w
    let w := { w with conv := { w.conv with ChunkFilter := EChunkFilter.Models } }
    let w := main.importAnimations env animations w
    let w := { w with conv := { w.conv with OverrideAnimName := "" } }
    let w := Converter.Save w
    (0, w)

/-! ## Observations on a trace -/

/-- An `AddMSH` call seen as a merge: the path its document was read from and
the `Converter` statics at the call. -/
def Event.asMerge : Event → Option (Option String × Converter)
  | Event.AddMSH msh conv => some (msh.source, conv)
  | _ => none

/-- The merges of a trace, in order. -/
def merges (t : List Event) : List (Option String × Converter) :=
  t.filterMap Event.asMerge

/-- Start, merge and save calls. -/
inductive Step where
  | start
  | merge (path : Option String) (filter : EChunkFilter)
  | save
  deriving DecidableEq, Repr

/-- Projection of an event to a `Step`. -/
def Event.step : Event → Option Step
  | Event.Start _ => some Step.start
  | Event.AddMSH msh conv => some (Step.merge msh.source conv.ChunkFilter)
  | Event.Save _ => some Step.save
  | _ => none

/-- The start, merge and save calls of a trace, in order. -/
def steps (t : List Event) : List Step :=
  t.filterMap Event.step

/-- The line written by a `Log` call. -/
def Event.asLog : Event → Option String
  | Event.Log msg => some msg
  | _ => none

/-- The lines written by `Log`, in order. -/
def logLines (t : List Event) : List String :=
  t.filterMap Event.asLog

/-- The argument of a `Converter::Start` call. -/
def Event.asStart : Event → Option String
  | Event.Start n => some n
  | _ => none

/-- The arguments of the `Converter::Start` calls, in order. -/
def startNames (t : List Event) : List String :=
  t.filterMap Event.asStart

/-- The `Converter` statics seen by a `Converter::Save` call. -/
def Event.asSave : Event → Option Converter
  | Event.Save c => some c
  | _ => none

/-- The `Converter` statics seen by the `Converter::Save` calls, in order. -/
def saves (t : List Event) : List Converter :=
  t.filterMap Event.asSave

/-- Calls that concern one document, and `Save`. -/
inductive DocCall where
  | create (handle : Nat)
  | read (handle : Nat) (path : String)
  | merge (handle : Nat)
  | destroy (handle : Nat)
  | save
  deriving DecidableEq, Repr

/-- Projection of an event to a `DocCall`. -/
def Event.docCall : Event → Option DocCall
  | Event.Create h => some (DocCall.create h)
  | Event.ReadFromFile h p _ => some (DocCall.read h p)
  | Event.AddMSH msh _ => some (DocCall.merge msh.handle)
  | Event.Destroy h => some (DocCall.destroy h)
  | Event.Save _ => some DocCall.save
  | _ => none

/-- The per-file sequence parse, merge, release for the given paths, the first
document having handle `h`. -/
def perFile : Nat → List String → List DocCall
  | _, [] => []
  | h, p :: ps =>
    [DocCall.create h, DocCall.read h p, DocCall.merge h, DocCall.destroy h] ++ perFile (h + 1) ps

/-- An event with the result of `ReadFromFile` blanked out. -/
def Event.eraseResult : Event → Event
  | Event.ReadFromFile h p _ => Event.ReadFromFile h p true
  | Event.AddMSH msh conv => Event.AddMSH { msh with readOk := true } conv
  | e => e

/-- The warning that `main` logs for an unknown `--ignore` name. -/
def warning (name : String) : String :=
  "'" ++ name ++ "' is not a valid filter option!"

/-- The names of a list that are not keys of `filterMap`, in order. -/
def unknownNames (filter : List String) : List String :=
  filter.filter (fun n => (List.lookup n filterMap).isNone)

/-- The purposes that the names of a list map to in `filterMap`, in order;
names that are not keys contribute nothing. -/
def knownPurposes (filter : List String) : List EModelPurpose :=
  filter.filterMap (fun n => List.lookup n filterMap)

/-- Bitwise OR of a list of integers. -/
def orAll (l : List Nat) : Nat := l.foldr (fun a b => a ||| b) 0

/-- Effect of one event on the list of live documents. -/
def liveStep (l : List Nat) : Event → List Nat
  | Event.Create h => l ++ [h]
  | Event.Destroy h => l.erase h
  | _ => l

/-- The documents created and not yet destroyed after the events of a trace. -/
def live (t : List Event) : List Nat := t.foldl liveStep []

/-- Example values for the enumerators: one bit per specific purpose, the
group names being the OR of their members. -/
def samplePurposeValue : EModelPurpose → Nat
  | EModelPurpose.Mesh => 63
  | EModelPurpose.Mesh_Regular => 1
  | EModelPurpose.Mesh_Lowrez => 2
  | EModelPurpose.Mesh_Collision => 4
  | EModelPurpose.Mesh_VehicleCollision => 8
  | EModelPurpose.Mesh_ShadowVolume => 16
  | EModelPurpose.Mesh_TerrainCut => 32
  | EModelPurpose.Point => 448
  | EModelPurpose.Point_EmptyTransform => 64
  | EModelPurpose.Point_DummyRoot => 128
  | EModelPurpose.Point_HardPoint => 256
  | EModelPurpose.Skeleton => 7680
  | EModelPurpose.Skeleton_Root => 512
  | EModelPurpose.Skeleton_BoneRoot => 1024
  | EModelPurpose.Skeleton_BoneLimb => 2048
  | EModelPurpose.Skeleton_BoneEnd => 4096

/-- An example environment in which every read succeeds. -/
def sampleEnv : Env :=
  { purposeValue := samplePurposeValue, readResult := fun _ _ => true, help := "usage" }

/-- Example start values of the `Converter` statics. -/
def sampleConv : Converter :=
  { ModelIgnoreFilter := 0, ChunkFilter := EChunkFilter.None, OverrideAnimName := "" }

/-! ## Closed form of the trace -/

/-- The four calls that `main` makes for the file `p` when its document gets
handle `h` and `conv` holds the statics at the merge. -/
def docBlock (env : Env) (conv : Converter) (h : Nat) (p : String) : List Event :=
  [Event.Create h, Event.ReadFromFile h p (env.readResult h p),
   Event.AddMSH { handle := h, source := some p, readOk := env.readResult h p } conv,
   Event.Destroy h]

/-- The calls of one pass over `paths`, the first document having handle `h`;
`view p` holds the statics at the merge of `p`. -/
def passTrace (env : Env) (view : String → Converter) : Nat → List String → List Event
  | _, [] => []
  | h, p :: ps => docBlock env (view p) h p ++ passTrace env view (h + 1) ps

/-- The statics at the merge of an animation file. -/
def animView (mif : Nat) (cf : EChunkFilter) (p : String) : Converter :=
  { ModelIgnoreFilter := mif, ChunkFilter := cf,
    OverrideAnimName := GetFileName (RemoveFileExtension p) }

/-- The value that the loop over the `--ignore` names leaves in
`Converter::ModelIgnoreFilter`. -/
def resolvedFilter (env : Env) (filter : List String) : Nat :=
  orAll ((knownPurposes filter).map env.purposeValue)

/-- The trace of `main` when at least one input file is given. -/
def mainTrace (env : Env) (conv0 : Converter) (files animations models filter : List String)
    (fbxFileName : String) : List Event :=
  (unknownNames filter).map (fun n => Event.Log (warning n)) ++
  [Event.Start (main.defaultName files animations models fbxFileName)] ++
  passTrace env (fun _ => { ModelIgnoreFilter := resolvedFilter env filter,
                            ChunkFilter := EChunkFilter.Animations,
                            OverrideAnimName := conv0.OverrideAnimName }) 0 models ++
  passTrace env (fun _ => { ModelIgnoreFilter := resolvedFilter env filter,
                            ChunkFilter := EChunkFilter.None,
                            OverrideAnimName := conv0.OverrideAnimName }) models.length files ++
  passTrace env (animView (resolvedFilter env filter) EChunkFilter.Models)
    (models.length + files.length) animations ++
  [Event.Save { ModelIgnoreFilter := resolvedFilter env filter,
                ChunkFilter := EChunkFilter.Models, OverrideAnimName := "" }]

/-- Spec-side definition: a directory separator of a path, backslash or
slash. -/
def isSeparator (c : Char) : Bool := c == '\\' || c == '/'

/-- Spec-side definition: the directory part of a path, up to and including
its last separator; empty when the path has no separator. -/
def specDirectory (p : String) : String :=
  match lastIndexOf isSeparator p.data with
  | some i => ⟨p.data.take (i + 1)⟩
  | none => ""

/-- Spec-side definition: the file name of a path, what follows its last
separator; the whole path when it has no separator. -/
def specFileName (p : String) : String :=
  match lastIndexOf isSeparator p.data with
  | some i => ⟨p.data.drop (i + 1)⟩
  | none => p

/-- Spec-side definition: the base name of a path in the spec's words, the
file name without directory or extension: the file name cut before its last
dot, or the whole file name when it has no dot. -/
def specBaseName (p : String) : String :=
  match lastIndexOf (fun c => c == '.') (specFileName p).data with
  | some j => ⟨(specFileName p).data.take j⟩
  | none => specFileName p

/-- An example environment in which the read of the first document fails and
every later read succeeds. -/
def firstReadFails : Env :=
  { purposeValue := samplePurposeValue, readResult := fun h _ => h != 0, help := "usage" }

/-- A trace that leaves no document live and never has more than one live. -/
def Quiet (t : List Event) : Prop :=
  live t = [] ∧ ∀ k, (live (t.take k)).length ≤ 1

/-- The trace of `main` before the call of `Converter::Save`. -/
def mainBody (env : Env) (conv0 : Converter) (files animations models filter : List String)
    (fbxFileName : String) : List Event :=
  (unknownNames filter).map (fun n => Event.Log (warning n)) ++
  [Event.Start (main.defaultName files animations models fbxFileName)] ++
  passTrace env (fun _ => { ModelIgnoreFilter := resolvedFilter env filter,
                            ChunkFilter := EChunkFilter.Animations,
                            OverrideAnimName := conv0.OverrideAnimName }) 0 models ++
  passTrace env (fun _ => { ModelIgnoreFilter := resolvedFilter env filter,
                            ChunkFilter := EChunkFilter.None,
                            OverrideAnimName := conv0.OverrideAnimName }) models.length files ++
  passTrace env (animView (resolvedFilter env filter) EChunkFilter.Models)
    (models.length + files.length) animations

/-! ## The loops of `main` in closed form -/

theorem importModels_eq (env : Env) (l : List String) (w : World) :
    main.importModels env l w =
      { conv := w.conv, created := w.created + l.length,
        trace := w.trace ++ passTrace env (fun _ => w.conv) w.created l } := by
  induction l generalizing w with
  | nil => simp [main.importModels, passTrace]
  | cons p ps ih =>
    simp [main.importModels, passTrace, docBlock, ih, MSH.Create, MSH.ReadFromFile,
      Converter.AddMSH, MSH.Destroy, World.emit]
    omega

theorem importFiles_eq (env : Env) (l : List String) (w : World) :
    main.importFiles env l w =
      { conv := w.conv, created := w.created + l.length,
        trace := w.trace ++ passTrace env (fun _ => w.conv) w.created l } := by
  induction l generalizing w with
  | nil => simp [main.importFiles, passTrace]
  | cons p ps ih =>
    simp [main.importFiles, passTrace, docBlock, ih, MSH.Create, MSH.ReadFromFile,
      Converter.AddMSH, MSH.Destroy, World.emit]
    omega

theorem importAnimations_eq (env : Env) (l : List String) (w : World) :
    ∃ s, main.importAnimations env l w =
      { conv := { w.conv with OverrideAnimName := s }, created := w.created + l.length,
        trace := w.trace ++
          passTrace env (animView w.conv.ModelIgnoreFilter w.conv.ChunkFilter) w.created l } := by
  induction l generalizing w with
  | nil => exact ⟨w.conv.OverrideAnimName, by simp [main.importAnimations, passTrace]⟩
  | cons p ps ih =>
    obtain ⟨s, hs⟩ := ih
      { conv := { w.conv with OverrideAnimName := GetFileName (RemoveFileExtension p) },
        created := w.created + 1,
        trace := w.trace ++ docBlock env
          (animView w.conv.ModelIgnoreFilter w.conv.ChunkFilter p) w.created p }
    refine ⟨s, ?_⟩
    have step : main.importAnimations env (p :: ps) w = main.importAnimations env ps
        { conv := { w.conv with OverrideAnimName := GetFileName (RemoveFileExtension p) },
          created := w.created + 1,
          trace := w.trace ++ docBlock env
            (animView w.conv.ModelIgnoreFilter w.conv.ChunkFilter p) w.created p } := by
      simp [main.importAnimations, MSH.Create, MSH.ReadFromFile, Converter.AddMSH,
        MSH.Destroy, World.emit, docBlock, animView]
    rw [step, hs]
    simp [passTrace, docBlock, animView]
    omega

theorem importAnimations_trace (env : Env) (l : List String) (w : World) :
    (main.importAnimations env l w).trace = w.trace ++
      passTrace env (animView w.conv.ModelIgnoreFilter w.conv.ChunkFilter) w.created l := by
  obtain ⟨s, hs⟩ := importAnimations_eq env l w
  rw [hs]

theorem importAnimations_created (env : Env) (l : List String) (w : World) :
    (main.importAnimations env l w).created = w.created + l.length := by
  obtain ⟨s, hs⟩ := importAnimations_eq env l w
  rw [hs]

theorem importAnimations_mif (env : Env) (l : List String) (w : World) :
    (main.importAnimations env l w).conv.ModelIgnoreFilter = w.conv.ModelIgnoreFilter := by
  obtain ⟨s, hs⟩ := importAnimations_eq env l w
  rw [hs]

theorem importAnimations_cf (env : Env) (l : List String) (w : World) :
    (main.importAnimations env l w).conv.ChunkFilter = w.conv.ChunkFilter := by
  obtain ⟨s, hs⟩ := importAnimations_eq env l w
  rw [hs]

theorem resolveFilter_eq (env : Env) (l : List String) (w : World) :
    main.resolveFilter env l w =
      { conv := { w.conv with ModelIgnoreFilter :=
                    (((knownPurposes l).map env.purposeValue).foldl (fun a b => a ||| b)
                      w.conv.ModelIgnoreFilter) },
        created := w.created,
        trace := w.trace ++ (unknownNames l).map (fun n => Event.Log (warning n)) } := by
  induction l generalizing w with
  | nil => simp [main.resolveFilter, knownPurposes, unknownNames]
  | cons n ns ih =>
    cases hn : List.lookup n filterMap with
    | none =>
      simp [main.resolveFilter, hn, ih, knownPurposes, unknownNames, Log, World.emit, warning]
    | some v =>
      simp [main.resolveFilter, hn, ih, knownPurposes, unknownNames, purposeOr]

theorem foldl_lor (l : List Nat) (a : Nat) :
    l.foldl (fun x y => x ||| y) a = a ||| orAll l := by
  induction l generalizing a with
  | nil => simp [orAll]
  | cons x xs ih =>
    have hx : orAll (x :: xs) = x ||| orAll xs := rfl
    rw [List.foldl_cons, ih, hx, Nat.lor_assoc]

theorem main_eq (env : Env) (conv0 : Converter) (files animations models filter : List String)
    (fbxFileName : String) (h : models ≠ [] ∨ files ≠ [] ∨ animations ≠ []) :
    main env conv0 files animations models filter fbxFileName =
      (0, { conv := { ModelIgnoreFilter := resolvedFilter env filter,
                      ChunkFilter := EChunkFilter.Models, OverrideAnimName := "" },
            created := models.length + files.length + animations.length,
            trace := mainTrace env conv0 files animations models filter fbxFileName }) := by
  have hne : ¬ (files.length = 0 ∧ animations.length = 0 ∧ models.length = 0) := by
    simp only [List.length_eq_zero]
    tauto
  unfold main
  rw [if_neg hne]
  simp only [resolveFilter_eq, importModels_eq, importFiles_eq, Converter.Start, Converter.Save,
    World.emit, importAnimations_trace, importAnimations_created, importAnimations_mif,
    importAnimations_cf, foldl_lor, Nat.zero_or, List.nil_append, Nat.zero_add]
  simp [mainTrace, resolvedFilter]

/-! ## Projections of the closed form -/

theorem steps_passTrace (env : Env) (view : String → Converter) (h : Nat) (l : List String) :
    steps (passTrace env view h l) = l.map (fun p => Step.merge (some p) (view p).ChunkFilter) := by
  induction l generalizing h with
  | nil => rfl
  | cons p ps ih =>
    have ih2 := ih (h + 1)
    simp only [steps] at ih2 ⊢
    simp [passTrace, docBlock, List.filterMap_cons, Event.step, ih2]

theorem merges_passTrace (env : Env) (view : String → Converter) (h : Nat) (l : List String) :
    merges (passTrace env view h l) = l.map (fun p => (some p, view p)) := by
  induction l generalizing h with
  | nil => rfl
  | cons p ps ih =>
    have ih2 := ih (h + 1)
    simp only [merges] at ih2 ⊢
    simp [passTrace, docBlock, List.filterMap_cons, Event.asMerge, ih2]

theorem logLines_passTrace (env : Env) (view : String → Converter) (h : Nat) (l : List String) :
    logLines (passTrace env view h l) = [] := by
  induction l generalizing h with
  | nil => rfl
  | cons p ps ih =>
    have ih2 := ih (h + 1)
    simp only [logLines] at ih2 ⊢
    simp [passTrace, docBlock, List.filterMap_cons, Event.asLog, ih2]

theorem startNames_passTrace (env : Env) (view : String → Converter) (h : Nat)
    (l : List String) : startNames (passTrace env view h l) = [] := by
  induction l generalizing h with
  | nil => rfl
  | cons p ps ih =>
    have ih2 := ih (h + 1)
    simp only [startNames] at ih2 ⊢
    simp [passTrace, docBlock, List.filterMap_cons, Event.asStart, ih2]

theorem saves_passTrace (env : Env) (view : String → Converter) (h : Nat) (l : List String) :
    saves (passTrace env view h l) = [] := by
  induction l generalizing h with
  | nil => rfl
  | cons p ps ih =>
    have ih2 := ih (h + 1)
    simp only [saves] at ih2 ⊢
    simp [passTrace, docBlock, List.filterMap_cons, Event.asSave, ih2]

theorem docCall_passTrace (env : Env) (view : String → Converter) (h : Nat) (l : List String) :
    (passTrace env view h l).filterMap Event.docCall = perFile h l := by
  induction l generalizing h with
  | nil => rfl
  | cons p ps ih =>
    simp [passTrace, docBlock, List.filterMap_cons, Event.docCall, ih (h + 1), perFile]

theorem perFile_append (h : Nat) (a b : List String) :
    perFile h (a ++ b) = perFile h a ++ perFile (h + a.length) b := by
  induction a generalizing h with
  | nil => simp [perFile]
  | cons p ps ih =>
    have e : h + 1 + ps.length = h + (ps.length + 1) := by omega
    have step : perFile h (p :: ps ++ b) =
        [DocCall.create h, DocCall.read h p, DocCall.merge h, DocCall.destroy h] ++
          perFile (h + 1) (ps ++ b) := rfl
    simp [step, perFile, ih (h + 1), e]

theorem filterMap_logs {β : Type} (f : Event → Option β) (hf : ∀ m, f (Event.Log m) = none)
    (l : List String) : (l.map (fun n => Event.Log (warning n))).filterMap f = [] := by
  induction l with
  | nil => rfl
  | cons n ns ih => simp [List.filterMap_cons, hf, ih]

theorem steps_mainTrace (env : Env) (conv0 : Converter)
    (files animations models filter : List String) (fbxFileName : String) :
    steps (mainTrace env conv0 files animations models filter fbxFileName) =
      [Step.start] ++
      models.map (fun p => Step.merge (some p) EChunkFilter.Animations) ++
      files.map (fun p => Step.merge (some p) EChunkFilter.None) ++
      animations.map (fun p => Step.merge (some p) EChunkFilter.Models) ++
      [Step.save] := by
  have h1 := steps_passTrace env
  have h2 := filterMap_logs Event.step (fun _ => rfl) (unknownNames filter)
  simp only [steps] at h1 ⊢
  simp [mainTrace, List.filterMap_append, h1, h2, Event.step, animView]

theorem merges_mainTrace (env : Env) (conv0 : Converter)
    (files animations models filter : List String) (fbxFileName : String) :
    merges (mainTrace env conv0 files animations models filter fbxFileName) =
      models.map (fun p => (some p,
        { ModelIgnoreFilter := resolvedFilter env filter, ChunkFilter := EChunkFilter.Animations,
          OverrideAnimName := conv0.OverrideAnimName })) ++
      files.map (fun p => (some p,
        { ModelIgnoreFilter := resolvedFilter env filter, ChunkFilter := EChunkFilter.None,
          OverrideAnimName := conv0.OverrideAnimName })) ++
      animations.map (fun p => (some p,
        animView (resolvedFilter env filter) EChunkFilter.Models p)) := by
  have h1 := merges_passTrace env
  have h2 := filterMap_logs Event.asMerge (fun _ => rfl) (unknownNames filter)
  simp only [merges] at h1 ⊢
  simp [mainTrace, List.filterMap_append, h1, h2, Event.asMerge]

theorem saves_mainTrace (env : Env) (conv0 : Converter)
    (files animations models filter : List String) (fbxFileName : String) :
    saves (mainTrace env conv0 files animations models filter fbxFileName) =
      [{ ModelIgnoreFilter := resolvedFilter env filter, ChunkFilter := EChunkFilter.Models,
         OverrideAnimName := "" }] := by
  have h1 := saves_passTrace env
  have h2 := filterMap_logs Event.asSave (fun _ => rfl) (unknownNames filter)
  simp only [saves] at h1 ⊢
  simp [mainTrace, List.filterMap_append, h1, h2, Event.asSave]

theorem startNames_mainTrace (env : Env) (conv0 : Converter)
    (files animations models filter : List String) (fbxFileName : String) :
    startNames (mainTrace env conv0 files animations models filter fbxFileName) =
      [main.defaultName files animations models fbxFileName] := by
  have h1 := startNames_passTrace env
  have h2 := filterMap_logs Event.asStart (fun _ => rfl) (unknownNames filter)
  simp only [startNames] at h1 ⊢
  simp [mainTrace, List.filterMap_append, h1, h2, Event.asStart]

theorem logLines_mainTrace (env : Env) (conv0 : Converter)
    (files animations models filter : List String) (fbxFileName : String) :
    logLines (mainTrace env conv0 files animations models filter fbxFileName) =
      (unknownNames filter).map warning := by
  have h1 := logLines_passTrace env
  have h2 : ∀ l : List String,
      (l.map (fun n => Event.Log (warning n))).filterMap Event.asLog = l.map warning := by
    intro l
    induction l with
    | nil => rfl
    | cons n ns ih => simp [List.filterMap_cons, Event.asLog, ih]
  simp only [logLines] at h1 ⊢
  simp [mainTrace, List.filterMap_append, h1, h2, Event.asLog]

theorem main_no_input (env : Env) (conv0 : Converter) (filter : List String)
    (fbxFileName : String) :
    main env conv0 [] [] [] filter fbxFileName =
      (0, { conv := conv0, created := 0, trace := [Event.Log env.help] }) := by
  simp [main, Log, World.emit]

theorem no_input_of_not (files animations models : List String)
    (h : ¬ (models ≠ [] ∨ files ≠ [] ∨ animations ≠ [])) :
    files = [] ∧ animations = [] ∧ models = [] := by
  by_cases hm : models = [] <;> by_cases hf : files = [] <;> by_cases ha : animations = [] <;>
    simp_all

/-- C1: when at least one of the three lists is non-empty, the start, merge
and save calls of `main` are: one `Converter::Start`, then one merge per file
of `models` in list order under `EChunkFilter::Animations`, then one merge per
file of `files` in list order under `EChunkFilter::None`, then one merge per
file of `animations` in list order under `EChunkFilter::Models`, then one
`Converter::Save`. -/
theorem main_three_passes_in_order (env : Env) (conv0 : Converter)
    (files animations models filter : List String) (fbxFileName : String)
    (h : models ≠ [] ∨ files ≠ [] ∨ animations ≠ []) :
    steps (main env conv0 files animations models filter fbxFileName).2.trace =
      [Step.start] ++
      models.map (fun p => Step.merge (some p) EChunkFilter.Animations) ++
      files.map (fun p => Step.merge (some p) EChunkFilter.None) ++
      animations.map (fun p => Step.merge (some p) EChunkFilter.Models) ++
      [Step.save] := by
  rw [main_eq env conv0 files animations models filter fbxFileName h]
  exact steps_mainTrace env conv0 files animations models filter fbxFileName

theorem main_three_passes_in_order_witness :
    (["m1.msh", "m2.msh"] ≠ [] ∨ ["f.msh"] ≠ [] ∨ ([] : List String) ≠ []) ∧
    steps (main sampleEnv sampleConv ["f.msh"] [] ["m1.msh", "m2.msh"] ["Bogus"] "").2.trace =
      [Step.start, Step.merge (some "m1.msh") EChunkFilter.Animations,
       Step.merge (some "m2.msh") EChunkFilter.Animations,
       Step.merge (some "f.msh") EChunkFilter.None, Step.save] :=
  ⟨by decide,
   main_three_passes_in_order sampleEnv sampleConv ["f.msh"] [] ["m1.msh", "m2.msh"] ["Bogus"] ""
     (by decide)⟩

/-- C5: when `Converter::OverrideAnimName` is the empty string at program
start, every merge of the model-only pass and of the general pass sees the
empty string, every merge of the animation-only pass sees the value derived
from its own file, `GetFileName(RemoveFileExtension(p))`, and every
`Converter::Save` call sees the empty string again (also when `animations` is
empty), as does the final state. -/
theorem override_confined_to_animation_pass (env : Env) (conv0 : Converter)
    (files animations models filter : List String) (fbxFileName : String)
    (h0 : conv0.OverrideAnimName = "") :
    (merges (main env conv0 files animations models filter fbxFileName).2.trace).map
        (fun m => (m.1, m.2.OverrideAnimName)) =
      models.map (fun p => (some p, "")) ++
      files.map (fun p => (some p, "")) ++
      animations.map (fun p => (some p, GetFileName (RemoveFileExtension p))) ∧
    (∀ c ∈ saves (main env conv0 files animations models filter fbxFileName).2.trace,
      c.OverrideAnimName = "") ∧
    (main env conv0 files animations models filter fbxFileName).2.conv.OverrideAnimName = "" := by
  by_cases h : models ≠ [] ∨ files ≠ [] ∨ animations ≠ []
  · rw [main_eq env conv0 files animations models filter fbxFileName h]
    refine ⟨?_, ?_, rfl⟩
    · simp [merges_mainTrace, h0, animView, Function.comp_def]
    · intro c hc
      rw [saves_mainTrace] at hc
      simp only [List.mem_singleton] at hc
      rw [hc]
  · obtain ⟨hf, ha, hm⟩ := no_input_of_not files animations models h
    subst hf ha hm
    rw [main_no_input]
    refine ⟨by simp [merges, Event.asMerge], ?_, h0⟩
    intro c hc
    simp [saves, Event.asSave] at hc

theorem override_confined_to_animation_pass_witness :
    sampleConv.OverrideAnimName = "" ∧
    (merges (main sampleEnv sampleConv ["f.msh"] ["C:\\anims\\walk.msh"] ["m.msh"] [] "").2.trace).map
        (fun m => (m.1, m.2.OverrideAnimName)) =
      [(some "m.msh", ""), (some "f.msh", ""), (some "C:\\anims\\walk.msh", "walk")] :=
  ⟨rfl,
   (override_confined_to_animation_pass sampleEnv sampleConv ["f.msh"] ["C:\\anims\\walk.msh"]
     ["m.msh"] [] "" rfl).1⟩

theorem knownPurposes_of_unknown (filter : List String)
    (h : ∀ n ∈ filter, List.lookup n filterMap = none) : knownPurposes filter = [] := by
  induction filter with
  | nil => rfl
  | cons n ns ih =>
    have hn := h n (List.mem_cons_self n ns)
    have hns := ih (fun m hm => h m (List.mem_cons_of_mem n hm))
    simp only [knownPurposes] at hns ⊢
    simp [List.filterMap_cons, hn, hns]

theorem testBit_orAll (l : List Nat) (i : Nat) :
    (orAll l).testBit i = l.any (fun x => x.testBit i) := by
  induction l with
  | nil => simp [orAll]
  | cons x xs ih =>
    have hx : orAll (x :: xs) = x ||| orAll xs := rfl
    rw [hx, Nat.testBit_lor, ih, List.any_cons]

theorem resolvedFilter_congr (env : Env) (l1 l2 : List String)
    (hset : ∀ n, n ∈ l1 ↔ n ∈ l2) : resolvedFilter env l1 = resolvedFilter env l2 := by
  apply Nat.eq_of_testBit_eq
  intro i
  rw [resolvedFilter, resolvedFilter, testBit_orAll, testBit_orAll, Bool.eq_iff_iff]
  simp only [List.any_eq_true, List.mem_map, knownPurposes, List.mem_filterMap]
  constructor
  · rintro ⟨x, ⟨p, ⟨n, hn, hp⟩, hx⟩, hb⟩
    exact ⟨x, ⟨p, ⟨n, (hset n).1 hn, hp⟩, hx⟩, hb⟩
  · rintro ⟨x, ⟨p, ⟨n, hn, hp⟩, hx⟩, hb⟩
    exact ⟨x, ⟨p, ⟨n, (hset n).2 hn, hp⟩, hx⟩, hb⟩

/-- C2: with at least one input file, the resolved
`Converter::ModelIgnoreFilter` (in the final state, at every merge and at
`Converter::Save`) is the bitwise OR of `filterMap[n]` over the names `n` of
the filter list that are keys of `filterMap`; it is 0 when no name of the list
is a key; the lines logged are one warning per name that is not a key, in list
order; and the run reaches `Converter::Save` and returns 0. -/
theorem ignore_filter_resolution (env : Env) (conv0 : Converter)
    (files animations models filter : List String) (fbxFileName : String)
    (h : models ≠ [] ∨ files ≠ [] ∨ animations ≠ []) :
    (main env conv0 files animations models filter fbxFileName).2.conv.ModelIgnoreFilter =
      orAll ((knownPurposes filter).map env.purposeValue) ∧
    (∀ m ∈ merges (main env conv0 files animations models filter fbxFileName).2.trace,
      m.2.ModelIgnoreFilter = orAll ((knownPurposes filter).map env.purposeValue)) ∧
    ((∀ n ∈ filter, List.lookup n filterMap = none) →
      (main env conv0 files animations models filter fbxFileName).2.conv.ModelIgnoreFilter = 0) ∧
    logLines (main env conv0 files animations models filter fbxFileName).2.trace =
      (unknownNames filter).map warning ∧
    saves (main env conv0 files animations models filter fbxFileName).2.trace =
      [{ ModelIgnoreFilter := orAll ((knownPurposes filter).map env.purposeValue),
         ChunkFilter := EChunkFilter.Models, OverrideAnimName := "" }] ∧
    (main env conv0 files animations models filter fbxFileName).1 = 0 := by
  rw [main_eq env conv0 files animations models filter fbxFileName h]
  refine ⟨rfl, ?_, ?_, ?_, ?_, rfl⟩
  · intro m hm
    rw [merges_mainTrace] at hm
    simp only [List.mem_append, List.mem_map] at hm
    rcases hm with (⟨p, _, rfl⟩ | ⟨p, _, rfl⟩) | ⟨p, _, rfl⟩ <;> rfl
  · intro hu
    show resolvedFilter env filter = 0
    rw [resolvedFilter, knownPurposes_of_unknown filter hu]
    rfl
  · exact logLines_mainTrace env conv0 files animations models filter fbxFileName
  · exact saves_mainTrace env conv0 files animations models filter fbxFileName

theorem ignore_filter_resolution_witness :
    (([] : List String) ≠ [] ∨ ["f.msh"] ≠ [] ∨ ([] : List String) ≠ []) ∧
    (main sampleEnv sampleConv ["f.msh"] [] [] ["Mesh_Lowrez", "Bogus", "Point_HardPoint"]
      "").2.conv.ModelIgnoreFilter = 258 ∧
    logLines (main sampleEnv sampleConv ["f.msh"] [] [] ["Mesh_Lowrez", "Bogus", "Point_HardPoint"]
      "").2.trace = ["'Bogus' is not a valid filter option!"] :=
  ⟨by decide,
   (ignore_filter_resolution sampleEnv sampleConv ["f.msh"] [] []
     ["Mesh_Lowrez", "Bogus", "Point_HardPoint"] "" (by decide)).1,
   (ignore_filter_resolution sampleEnv sampleConv ["f.msh"] [] []
     ["Mesh_Lowrez", "Bogus", "Point_HardPoint"] "" (by decide)).2.2.2.1⟩

/-- C8: the resolved `Converter::ModelIgnoreFilter` depends only on the set of
names in the filter list: two lists with the same members (whatever the order
and the repetitions) give the same filter in the final state, the same merges
and the same statics at `Converter::Save`. -/
theorem ignore_filter_depends_on_name_set (env : Env) (conv0 : Converter)
    (files animations models : List String) (fbxFileName : String) (l1 l2 : List String)
    (hset : ∀ n, n ∈ l1 ↔ n ∈ l2) :
    (main env conv0 files animations models l1 fbxFileName).2.conv.ModelIgnoreFilter =
      (main env conv0 files animations models l2 fbxFileName).2.conv.ModelIgnoreFilter ∧
    merges (main env conv0 files animations models l1 fbxFileName).2.trace =
      merges (main env conv0 files animations models l2 fbxFileName).2.trace ∧
    saves (main env conv0 files animations models l1 fbxFileName).2.trace =
      saves (main env conv0 files animations models l2 fbxFileName).2.trace := by
  by_cases h : models ≠ [] ∨ files ≠ [] ∨ animations ≠ []
  · rw [main_eq env conv0 files animations models l1 fbxFileName h,
      main_eq env conv0 files animations models l2 fbxFileName h]
    simp only [merges_mainTrace, saves_mainTrace, resolvedFilter_congr env l1 l2 hset]
    exact ⟨trivial, trivial, trivial⟩
  · obtain ⟨hf, ha, hm⟩ := no_input_of_not files animations models h
    subst hf ha hm
    rw [main_no_input, main_no_input]
    exact ⟨rfl, rfl, rfl⟩

theorem ignore_filter_depends_on_name_set_witness :
    (∀ n, n ∈ ["Mesh_Collision", "Mesh_Collision"] ↔ n ∈ ["Mesh_Collision"]) ∧
    (main sampleEnv sampleConv ["f.msh"] [] [] ["Mesh_Collision", "Mesh_Collision"]
      "").2.conv.ModelIgnoreFilter =
    (main sampleEnv sampleConv ["f.msh"] [] [] ["Mesh_Collision"] "").2.conv.ModelIgnoreFilter :=
  ⟨by simp,
   (ignore_filter_depends_on_name_set sampleEnv sampleConv ["f.msh"] [] [] ""
     ["Mesh_Collision", "Mesh_Collision"] ["Mesh_Collision"] (by simp)).1⟩

/-! ## The string helpers -/

theorem lastIndexOf_none (p : Char → Bool) (l : List Char) (h : lastIndexOf p l = none) :
    ∀ c ∈ l, p c = false := by
  induction l with
  | nil => simp
  | cons c cs ih =>
    rw [lastIndexOf] at h
    cases hcs : lastIndexOf p cs with
    | some i => simp [hcs] at h
    | none =>
      rw [hcs] at h
      by_cases hp : p c = true
      · simp [hp] at h
      · intro d hd
        rcases List.mem_cons.1 hd with rfl | hd
        · simpa using hp
        · exact ih hcs d hd

theorem lastIndexOf_some (p : Char → Bool) (l : List Char) (i : Nat)
    (h : lastIndexOf p l = some i) :
    ∃ c rest, l = l.take i ++ c :: rest ∧ p c = true ∧ ∀ d ∈ rest, p d = false := by
  induction l generalizing i with
  | nil => simp [lastIndexOf] at h
  | cons c cs ih =>
    rw [lastIndexOf] at h
    cases hcs : lastIndexOf p cs with
    | some j =>
      rw [hcs] at h
      simp only [Option.some.injEq] at h
      subst h
      obtain ⟨d, rest, h1, h2, h3⟩ := ih j hcs
      refine ⟨d, rest, ?_, h2, h3⟩
      rw [List.take_succ_cons, List.cons_append, ← h1]
    | none =>
      rw [hcs] at h
      by_cases hp : p c = true
      · simp only [hp, if_true, Option.some.injEq] at h
        subst h
        exact ⟨c, cs, by simp, hp, lastIndexOf_none p cs hcs⟩
      · simp [hp] at h

theorem lastIndexOf_lt (p : Char → Bool) (l : List Char) (i : Nat)
    (h : lastIndexOf p l = some i) : i < l.length := by
  obtain ⟨c, rest, h1, _, _⟩ := lastIndexOf_some p l i h
  by_contra hlt
  have h2 : l.take i = l := List.take_of_length_le (by omega)
  rw [h2] at h1
  have h3 := congrArg List.length h1
  simp at h3

/-- C10: for every string `s`, `RemoveFileExtension(s)` is a prefix of `s`; it
is `s` itself when `s` has no dot; and when `s` has a dot, `s` is
`RemoveFileExtension(s)` followed by a dot and a rest without dots, so the cut
is at the last dot of the whole string, also when that dot is in a directory
component (as for `C:\pack.v2\model`). -/
theorem removeFileExtension_cuts_at_last_dot (s : String) :
    (RemoveFileExtension s).data <+: s.data ∧
    ('.' ∉ s.data → RemoveFileExtension s = s) ∧
    ('.' ∈ s.data → ∃ e : String, '.' ∉ e.data ∧ s = RemoveFileExtension s ++ "." ++ e) ∧
    RemoveFileExtension "C:\\pack.v2\\model" = "C:\\pack" := by
  have hp : ∀ c : Char, (".".data.contains c) = true ↔ c = '.' := by
    intro c
    show (['.'].contains c) = true ↔ c = '.'
    simp
  cases hfind : find_last_of s "." with
  | none =>
    have hR : RemoveFileExtension s = s := by simp [RemoveFileExtension, hfind]
    have hno := lastIndexOf_none _ _ hfind
    have hdot : '.' ∉ s.data := by
      intro hmem
      have := hno '.' hmem
      rw [(hp '.').2 rfl] at this
      exact Bool.noConfusion this
    refine ⟨by rw [hR], fun _ => hR, fun hmem => absurd hmem hdot, by decide⟩
  | some i =>
    have hR : RemoveFileExtension s = ⟨s.data.take i⟩ := by
      simp [RemoveFileExtension, hfind, substr]
    obtain ⟨c, rest, h1, h2, h3⟩ := lastIndexOf_some _ _ _ hfind
    have hc : c = '.' := (hp c).1 h2
    subst hc
    have hrest : '.' ∉ rest := by
      intro hmem
      have := h3 '.' hmem
      rw [(hp '.').2 rfl] at this
      exact Bool.noConfusion this
    refine ⟨?_, ?_, ?_, by decide⟩
    · rw [hR]
      exact List.take_prefix i s.data
    · intro hdot
      exfalso
      apply hdot
      rw [h1]
      simp
    · intro _
      refine ⟨⟨rest⟩, hrest, ?_⟩
      apply String.ext
      rw [hR]
      simp only [String.data_append]
      show s.data = List.take i s.data ++ ['.'] ++ rest
      rw [List.append_assoc]
      exact h1

theorem removeFileExtension_cuts_at_last_dot_witness :
    '.' ∈ "walk.v2.msh".data ∧
    ∃ e : String, '.' ∉ e.data ∧
      "walk.v2.msh" = RemoveFileExtension "walk.v2.msh" ++ "." ++ e :=
  ⟨by decide, (removeFileExtension_cuts_at_last_dot "walk.v2.msh").2.2.1 (by decide)⟩

/-- C3 (the code at the path `b.msh` of the claim): the path has no backslash,
so `GetFileName` returns the empty string, and the merge of `b.msh` in the
animation-only pass sees `Converter::OverrideAnimName` empty, not `b`. -/
theorem override_for_bare_file_name_is_empty :
    GetFileName (RemoveFileExtension "b.msh") = "" ∧
    (merges (main sampleEnv sampleConv ["a.msh"] ["b.msh"] [] [] "").2.trace).map
        (fun m => (m.1, m.2.OverrideAnimName)) =
      [(some "a.msh", ""), (some "b.msh", "")] := by
  decide

/-- C9 (as the code has it): `filterMap` has 16 entries, with pairwise
distinct names. -/
theorem filterMap_has_16_distinct_names :
    filterMap.length = 16 ∧ (filterMap.map Prod.fst).Nodup := by
  decide

/-- C9 (as stated) fails: `filterMap` does not have 19 entries. -/
theorem filterMap_not_19_entries :
    ¬ (filterMap.length = 19 ∧ (filterMap.map Prod.fst).Nodup) := by
  decide

/-! ## The output name -/

theorem lastIndexOf_of_none (q : Char → Bool) (l : List Char)
    (h : ∀ c ∈ l, q c = false) : lastIndexOf q l = none := by
  induction l with
  | nil => rfl
  | cons c cs ih =>
    have h1 := ih (fun d hd => h d (List.mem_cons_of_mem c hd))
    have h2 := h c (List.mem_cons_self c cs)
    simp [lastIndexOf, h1, h2]

theorem lastIndexOf_append (q : Char → Bool) (a b : List Char) :
    lastIndexOf q (a ++ b) =
      match lastIndexOf q b with
      | some j => some (a.length + j)
      | none => lastIndexOf q a := by
  induction a with
  | nil =>
    cases hb : lastIndexOf q b <;> simp [hb, lastIndexOf]
  | cons c cs ih =>
    rw [List.cons_append, lastIndexOf, ih]
    cases hb : lastIndexOf q b with
    | some j =>
      simp only [List.length_cons, Option.some.injEq]
      omega
    | none =>
      simp only []
      rw [lastIndexOf]

theorem spec_split (p : String) :
    (specDirectory p).data ++ (specFileName p).data = p.data := by
  unfold specDirectory specFileName
  cases lastIndexOf isSeparator p.data with
  | none => rfl
  | some i => exact List.take_append_drop (i + 1) p.data

theorem removeFileExtension_regular (p : String)
    (hreg : '.' ∈ (specFileName p).data ∨ '.' ∉ p.data) :
    RemoveFileExtension p = specDirectory p ++ specBaseName p := by
  have hq : (fun x => ".".data.contains x) = (fun c : Char => c == '.') := by
    funext c
    show (['.'].contains c) = (c == '.')
    simp only [List.contains, List.elem]
    cases (c == '.') <;> rfl
  have hsplit := spec_split p
  have hfind : find_last_of p "." =
      match lastIndexOf (fun c : Char => c == '.') (specFileName p).data with
      | some j => some ((specDirectory p).data.length + j)
      | none => lastIndexOf (fun c : Char => c == '.') (specDirectory p).data := by
    unfold find_last_of
    rw [hq, ← lastIndexOf_append, hsplit]
  apply String.ext
  rw [String.data_append]
  unfold RemoveFileExtension specBaseName
  rw [hfind]
  cases hf : lastIndexOf (fun c : Char => c == '.') (specFileName p).data with
  | some j =>
    simp only [substr, List.drop_zero]
    rw [← List.take_append, hsplit]
  | none =>
    have hnof := lastIndexOf_none _ _ hf
    have hnop : '.' ∉ p.data := by
      rcases hreg with hin | hnot
      · have := hnof '.' hin
        simp at this
      · exact hnot
    have hd : lastIndexOf (fun c : Char => c == '.') (specDirectory p).data = none := by
      apply lastIndexOf_of_none
      intro c hc
      have hcp : c ∈ p.data := by
        rw [← hsplit]
        exact List.mem_append_left _ hc
      by_cases hcd : c = '.'
      · subst hcd
        exact absurd hcp hnop
      · simpa using hcd
    simp only [hd]
    exact hsplit.symm

/-- C7 (as the code has it): with at least one input file, `Converter::Start`
is called once.  Its argument is `fbxFileName` unchanged when that is
non-empty, and otherwise `RemoveFileExtension(p) + ".fbx"` for the first input
`p` by priority: `files[0]` if `files` is non-empty, else `models[0]` if
`models` is non-empty, else `animations[0]`.  The directory part of `p` is
kept: whenever the file name of `p` has a dot, or `p` has no dot at all, the
argument is the directory part of `p`, then the base name of `p`, then
`.fbx`. -/
theorem start_name_priority (env : Env) (conv0 : Converter)
    (files animations models filter : List String) (fbxFileName : String)
    (h : models ≠ [] ∨ files ≠ [] ∨ animations ≠ []) :
    (fbxFileName ≠ "" →
      startNames (main env conv0 files animations models filter fbxFileName).2.trace =
        [fbxFileName]) ∧
    (fbxFileName = "" → ∀ f fs, files = f :: fs →
      startNames (main env conv0 files animations models filter fbxFileName).2.trace =
        [RemoveFileExtension f ++ ".fbx"]) ∧
    (fbxFileName = "" → files = [] → ∀ m ms, models = m :: ms →
      startNames (main env conv0 files animations models filter fbxFileName).2.trace =
        [RemoveFileExtension m ++ ".fbx"]) ∧
    (fbxFileName = "" → files = [] → models = [] → ∀ a as, animations = a :: as →
      startNames (main env conv0 files animations models filter fbxFileName).2.trace =
        [RemoveFileExtension a ++ ".fbx"]) ∧
    (fbxFileName = "" → ∀ p, (files ++ models ++ animations).head? = some p →
      ('.' ∈ (specFileName p).data ∨ '.' ∉ p.data) →
      startNames (main env conv0 files animations models filter fbxFileName).2.trace =
        [specDirectory p ++ specBaseName p ++ ".fbx"]) := by
  rw [main_eq env conv0 files animations models filter fbxFileName h, startNames_mainTrace]
  refine ⟨?_, ?_, ?_, ?_, ?_⟩
  · intro hn
    simp [main.defaultName, hn]
  · intro hn f fs hf
    subst hn hf
    simp [main.defaultName]
  · intro hn hf m ms hm
    subst hn hf hm
    simp [main.defaultName]
  · intro hn hf hm a as ha
    subst hn hf hm ha
    simp [main.defaultName]
  · intro hn p hp hreg
    subst hn
    rw [← removeFileExtension_regular p hreg]
    cases files with
    | cons f fs =>
      simp only [List.cons_append, List.head?_cons, Option.some.injEq] at hp
      subst hp
      simp [main.defaultName]
    | nil =>
      cases models with
      | cons m ms =>
        simp only [List.nil_append, List.cons_append, List.head?_cons,
          Option.some.injEq] at hp
        subst hp
        simp [main.defaultName]
      | nil =>
        cases animations with
        | cons a as =>
          simp only [List.nil_append, List.head?_cons, Option.some.injEq] at hp
          subst hp
          simp [main.defaultName]
        | nil => simp at hp

theorem start_name_priority_witness :
    (["m.msh"] ≠ [] ∨ ["dir\\f.msh", "g.msh"] ≠ [] ∨ ["a.msh"] ≠ []) ∧
    ('.' ∈ (specFileName "dir\\f.msh").data ∨ '.' ∉ "dir\\f.msh".data) ∧
    startNames (main sampleEnv sampleConv ["dir\\f.msh", "g.msh"] ["a.msh"] ["m.msh"] [] "").2.trace =
      [specDirectory "dir\\f.msh" ++ specBaseName "dir\\f.msh" ++ ".fbx"] ∧
    specDirectory "dir\\f.msh" ++ specBaseName "dir\\f.msh" ++ ".fbx" = "dir\\f.fbx" :=
  ⟨by decide, by decide,
   (start_name_priority sampleEnv sampleConv ["dir\\f.msh", "g.msh"] ["a.msh"] ["m.msh"] [] ""
     (by decide)).2.2.2.2 rfl "dir\\f.msh" rfl (by decide),
   by decide⟩

/-- C7 (as stated) fails: the name passed to `Converter::Start` is not derived
from the base name of the first input.  The inputs `dir\f.msh` and
`other\f.msh` have the same base name `f` and get the different names
`dir\f.fbx` and `other\f.fbx`, so no function of the base name gives the name;
and for `C:\pack.v2\model` and `./a`, whose base names are `model` and `a`, the
names are `C:\pack.fbx` and `.fbx`. -/
theorem start_name_not_from_base_name :
    (¬ ∃ derive : String → String,
      startNames (main sampleEnv sampleConv ["dir\\f.msh"] [] [] [] "").2.trace =
        [derive (specBaseName "dir\\f.msh")] ∧
      startNames (main sampleEnv sampleConv ["other\\f.msh"] [] [] [] "").2.trace =
        [derive (specBaseName "other\\f.msh")]) ∧
    specBaseName "dir\\f.msh" = "f" ∧
    startNames (main sampleEnv sampleConv ["dir\\f.msh"] [] [] [] "").2.trace =
      ["dir\\f.fbx"] ∧
    specBaseName "C:\\pack.v2\\model" = "model" ∧
    startNames (main sampleEnv sampleConv ["C:\\pack.v2\\model"] [] [] [] "").2.trace =
      ["C:\\pack.fbx"] ∧
    specBaseName "./a" = "a" ∧
    startNames (main sampleEnv sampleConv ["./a"] [] [] [] "").2.trace = [".fbx"] := by
  refine ⟨?_, by decide, by decide, by decide, by decide, by decide, by decide⟩
  rintro ⟨derive, h1, h2⟩
  have e1 : startNames (main sampleEnv sampleConv ["dir\\f.msh"] [] [] [] "").2.trace =
      ["dir\\f.fbx"] := by decide
  have e2 : startNames (main sampleEnv sampleConv ["other\\f.msh"] [] [] [] "").2.trace =
      ["other\\f.fbx"] := by decide
  have b1 : specBaseName "dir\\f.msh" = "f" := by decide
  have b2 : specBaseName "other\\f.msh" = "f" := by decide
  rw [e1, b1] at h1
  rw [e2, b2] at h2
  have h3 : ["dir\\f.fbx"] = ["other\\f.fbx"] := h1.trans h2.symm
  revert h3
  decide

theorem docCall_mainTrace (env : Env) (conv0 : Converter)
    (files animations models filter : List String) (fbxFileName : String) :
    (mainTrace env conv0 files animations models filter fbxFileName).filterMap Event.docCall =
      perFile 0 (models ++ files ++ animations) ++ [DocCall.save] := by
  have h2 := filterMap_logs Event.docCall (fun _ => rfl) (unknownNames filter)
  simp [mainTrace, List.filterMap_append, docCall_passTrace, h2, Event.docCall,
    perFile_append]

/-! ## Read failures -/

theorem eraseResult_passTrace (env1 env2 : Env) (view : String → Converter) (h : Nat)
    (l : List String) :
    (passTrace env1 view h l).map Event.eraseResult =
      (passTrace env2 view h l).map Event.eraseResult := by
  induction l generalizing h with
  | nil => rfl
  | cons p ps ih => simp [passTrace, docBlock, Event.eraseResult, ih (h + 1)]

theorem merged_of_read_passTrace (env : Env) (view : String → Converter) (h : Nat)
    (l : List String) (hd : Nat) (p : String) (r : Bool)
    (hmem : Event.ReadFromFile hd p r ∈ passTrace env view h l) :
    ∃ c, Event.AddMSH { handle := hd, source := some p, readOk := r } c ∈
      passTrace env view h l := by
  induction l generalizing h with
  | nil => simp [passTrace] at hmem
  | cons q qs ih =>
    simp only [passTrace, List.mem_append] at hmem ⊢
    rcases hmem with hmem | hmem
    · simp [docBlock] at hmem
      obtain ⟨rfl, rfl, rfl⟩ := hmem
      exact ⟨view p, Or.inl (by simp [docBlock])⟩
    · obtain ⟨c, hc⟩ := ih (h + 1) hmem
      exact ⟨c, Or.inr hc⟩

/-- C4 (as the code has it): the result of `ReadFromFile` is discarded.  With
at least one input file and whatever the reads return, every document that was
read, also one whose read failed, is passed to `Converter::AddMSH`; the trace
is, up to the read results, the trace of the run in which every read succeeds;
its last call is `Converter::Save`; `main` returns 0; and the calls that
concern documents are create, read, merge, destroy for every file of `models`,
`files` and `animations` in turn, followed by `Converter::Save`. -/
theorem read_failure_does_not_abort (env : Env) (conv0 : Converter)
    (files animations models filter : List String) (fbxFileName : String)
    (h : models ≠ [] ∨ files ≠ [] ∨ animations ≠ []) :
    (∀ hd p r,
      Event.ReadFromFile hd p r ∈
        (main env conv0 files animations models filter fbxFileName).2.trace →
      ∃ c, Event.AddMSH { handle := hd, source := some p, readOk := r } c ∈
        (main env conv0 files animations models filter fbxFileName).2.trace) ∧
    (main env conv0 files animations models filter fbxFileName).2.trace.map Event.eraseResult =
      (main { env with readResult := fun _ _ => true } conv0 files animations models filter
        fbxFileName).2.trace.map Event.eraseResult ∧
    (∃ c, (main env conv0 files animations models filter fbxFileName).2.trace.getLast? =
      some (Event.Save c)) ∧
    (main env conv0 files animations models filter fbxFileName).1 = 0 ∧
    (main env conv0 files animations models filter fbxFileName).2.trace.filterMap Event.docCall =
      perFile 0 (models ++ files ++ animations) ++ [DocCall.save] := by
  rw [main_eq env conv0 files animations models filter fbxFileName h,
    main_eq { env with readResult := fun _ _ => true } conv0 files animations models filter
      fbxFileName h]
  refine ⟨?_, ?_, ?_, rfl,
    docCall_mainTrace env conv0 files animations models filter fbxFileName⟩
  · intro hd p r hmem
    simp only [mainTrace, List.mem_append, List.mem_map, List.mem_singleton] at hmem ⊢
    rcases hmem with ((((⟨n, _, hn⟩ | hmem) | hmem) | hmem) | hmem) | hmem
    · cases hn
    · cases hmem
    · obtain ⟨c, hc⟩ := merged_of_read_passTrace _ _ _ _ _ _ _ hmem
      exact ⟨c, Or.inl (Or.inl (Or.inl (Or.inr hc)))⟩
    · obtain ⟨c, hc⟩ := merged_of_read_passTrace _ _ _ _ _ _ _ hmem
      exact ⟨c, Or.inl (Or.inl (Or.inr hc))⟩
    · obtain ⟨c, hc⟩ := merged_of_read_passTrace _ _ _ _ _ _ _ hmem
      exact ⟨c, Or.inl (Or.inr hc)⟩
    · cases hmem
  · simp only [mainTrace, List.map_append]
    rw [eraseResult_passTrace env { env with readResult := fun _ _ => true },
      eraseResult_passTrace env { env with readResult := fun _ _ => true },
      eraseResult_passTrace env { env with readResult := fun _ _ => true }]
    rfl
  · exact ⟨_, List.getLast?_concat _⟩

theorem read_failure_does_not_abort_witness :
    (["bad.msh", "next.msh"] ≠ [] ∨ ([] : List String) ≠ [] ∨ ([] : List String) ≠ []) ∧
    ∃ c, (main firstReadFails sampleConv [] [] ["bad.msh", "next.msh"] [] "out").2.trace.getLast? =
      some (Event.Save c) :=
  ⟨by decide,
   (read_failure_does_not_abort firstReadFails sampleConv [] [] ["bad.msh", "next.msh"] [] "out"
     (by decide)).2.2.1⟩

/-- C4 (as stated) fails: the read of `bad.msh` reports failure, yet its
document is merged, the next file is processed and `Converter::Save` is
called. -/
theorem failed_read_is_merged_and_saved :
    (main firstReadFails sampleConv [] [] ["bad.msh", "next.msh"] [] "out").2.trace =
      [Event.Start "out",
       Event.Create 0,
       Event.ReadFromFile 0 "bad.msh" false,
       Event.AddMSH { handle := 0, source := some "bad.msh", readOk := false }
         { ModelIgnoreFilter := 0, ChunkFilter := EChunkFilter.Animations,
           OverrideAnimName := "" },
       Event.Destroy 0,
       Event.Create 1,
       Event.ReadFromFile 1 "next.msh" true,
       Event.AddMSH { handle := 1, source := some "next.msh", readOk := true }
         { ModelIgnoreFilter := 0, ChunkFilter := EChunkFilter.Animations,
           OverrideAnimName := "" },
       Event.Destroy 1,
       Event.Save { ModelIgnoreFilter := 0, ChunkFilter := EChunkFilter.Models,
                    OverrideAnimName := "" }] := by
  decide

/-! ## Lifetime of the documents -/

theorem live_append (a b : List Event) : live (a ++ b) = b.foldl liveStep (live a) := by
  simp [live, List.foldl_append]

theorem quiet_append (a b : List Event) (ha : Quiet a) (hb : Quiet b) : Quiet (a ++ b) := by
  constructor
  · rw [live_append, ha.1]
    exact hb.1
  · intro k
    rw [List.take_append_eq_append_take, live_append]
    by_cases hk : k ≤ a.length
    · have h0 : k - a.length = 0 := by omega
      rw [h0, List.take_zero, List.foldl_nil]
      exact ha.2 k
    · have h1 : a.take k = a := List.take_of_length_le (by omega)
      rw [h1, ha.1]
      exact hb.2 (k - a.length)

theorem quiet_nil : Quiet [] := by
  constructor
  · rfl
  · intro k
    simp [live]

theorem quiet_single (e : Event) (he : ∀ l, liveStep l e = l) : Quiet [e] := by
  constructor
  · simp [live, he]
  · intro k
    rcases k with _ | k
    · simp [live]
    · simp [live, he]

theorem quiet_logs (l : List String) : Quiet (l.map (fun n => Event.Log (warning n))) := by
  induction l with
  | nil => exact quiet_nil
  | cons n ns ih =>
    exact quiet_append [Event.Log (warning n)] _ (quiet_single _ (fun _ => rfl)) ih

theorem quiet_docBlock (env : Env) (conv : Converter) (h : Nat) (p : String) :
    Quiet (docBlock env conv h p) := by
  constructor
  · simp [live, docBlock, liveStep]
  · intro k
    rcases k with _ | _ | _ | _ | k <;> simp [live, docBlock, liveStep]

theorem quiet_passTrace (env : Env) (view : String → Converter) (h : Nat) (l : List String) :
    Quiet (passTrace env view h l) := by
  induction l generalizing h with
  | nil => exact quiet_nil
  | cons p ps ih => exact quiet_append _ _ (quiet_docBlock env (view p) h p) (ih (h + 1))

theorem mainTrace_eq_body (env : Env) (conv0 : Converter)
    (files animations models filter : List String) (fbxFileName : String) :
    mainTrace env conv0 files animations models filter fbxFileName =
      mainBody env conv0 files animations models filter fbxFileName ++
      [Event.Save { ModelIgnoreFilter := resolvedFilter env filter,
                    ChunkFilter := EChunkFilter.Models, OverrideAnimName := "" }] := rfl

theorem quiet_mainBody (env : Env) (conv0 : Converter)
    (files animations models filter : List String) (fbxFileName : String) :
    Quiet (mainBody env conv0 files animations models filter fbxFileName) := by
  unfold mainBody
  exact quiet_append _ _ (quiet_append _ _ (quiet_append _ _ (quiet_append _ _
    (quiet_logs _) (quiet_single _ (fun _ => rfl))) (quiet_passTrace _ _ _ _))
    (quiet_passTrace _ _ _ _)) (quiet_passTrace _ _ _ _)

theorem count_create_passTrace (env : Env) (view : String → Converter) (h : Nat)
    (l : List String) (hd : Nat) :
    (passTrace env view h l).count (Event.Create hd) =
      if h ≤ hd ∧ hd < h + l.length then 1 else 0 := by
  induction l generalizing h with
  | nil =>
    simp only [passTrace, List.count_nil, List.length_nil]
    split_ifs <;> omega
  | cons p ps ih =>
    simp only [passTrace, docBlock, List.count_append, ih (h + 1), List.count_cons,
      List.count_nil, List.length_cons, beq_iff_eq, Event.Create.injEq]
    simp only [reduceCtorEq, if_false]
    split_ifs <;> omega

theorem count_destroy_passTrace (env : Env) (view : String → Converter) (h : Nat)
    (l : List String) (hd : Nat) :
    (passTrace env view h l).count (Event.Destroy hd) =
      if h ≤ hd ∧ hd < h + l.length then 1 else 0 := by
  induction l generalizing h with
  | nil =>
    simp only [passTrace, List.count_nil, List.length_nil]
    split_ifs <;> omega
  | cons p ps ih =>
    simp only [passTrace, docBlock, List.count_append, ih (h + 1), List.count_cons,
      List.count_nil, List.length_cons, beq_iff_eq, Event.Destroy.injEq]
    simp only [reduceCtorEq, if_false]
    split_ifs <;> omega

theorem count_logs (l : List String) (e : Event) (he : ∀ m, Event.Log m ≠ e) :
    (l.map (fun n => Event.Log (warning n))).count e = 0 := by
  rw [List.count_eq_zero]
  intro hmem
  obtain ⟨n, _, hn⟩ := List.mem_map.1 hmem
  exact he _ hn

theorem saves_mainBody (env : Env) (conv0 : Converter)
    (files animations models filter : List String) (fbxFileName : String) :
    saves (mainBody env conv0 files animations models filter fbxFileName) = [] := by
  have h1 := saves_passTrace env
  have h2 := filterMap_logs Event.asSave (fun _ => rfl) (unknownNames filter)
  simp only [saves] at h1 ⊢
  simp [mainBody, List.filterMap_append, h1, h2, Event.asSave]

theorem count_mainTrace (env : Env) (conv0 : Converter)
    (files animations models filter : List String) (fbxFileName : String) (hd : Nat) :
    (mainTrace env conv0 files animations models filter fbxFileName).count (Event.Destroy hd) =
      (mainTrace env conv0 files animations models filter fbxFileName).count (Event.Create hd) ∧
    (mainTrace env conv0 files animations models filter fbxFileName).count (Event.Create hd)
      ≤ 1 := by
  have hc := count_logs (unknownNames filter) (Event.Create hd) (fun _ hm => by cases hm)
  have hdd := count_logs (unknownNames filter) (Event.Destroy hd) (fun _ hm => by cases hm)
  constructor
  · simp only [mainTrace, List.count_append, hc, hdd, count_create_passTrace,
      count_destroy_passTrace, List.count_cons, List.count_nil, beq_iff_eq, reduceCtorEq,
      if_false]
  · simp only [mainTrace, List.count_append, hc, count_create_passTrace,
      List.count_cons, List.count_nil, beq_iff_eq, reduceCtorEq, if_false]
    split_ifs <;> omega

/-- C6: with at least one input file, the calls that concern documents are,
for each file of `models`, then `files`, then `animations` in turn, the
sequence create, read, merge, destroy on that file's own document, followed by
`Converter::Save`; no branch skips the destroy.  So every document is destroyed
as often as it is created, which is at most once; at every point of the run at
most one document is live; and `Converter::Save` is the last call, made when no
document is live. -/
theorem documents_released_after_merge (env : Env) (conv0 : Converter)
    (files animations models filter : List String) (fbxFileName : String)
    (h : models ≠ [] ∨ files ≠ [] ∨ animations ≠ []) :
    (main env conv0 files animations models filter fbxFileName).2.trace.filterMap Event.docCall =
      perFile 0 (models ++ files ++ animations) ++ [DocCall.save] ∧
    (∀ hd,
      (main env conv0 files animations models filter fbxFileName).2.trace.count
          (Event.Destroy hd) =
        (main env conv0 files animations models filter fbxFileName).2.trace.count
          (Event.Create hd) ∧
      (main env conv0 files animations models filter fbxFileName).2.trace.count
          (Event.Create hd) ≤ 1) ∧
    (∀ k,
      (live ((main env conv0 files animations models filter fbxFileName).2.trace.take k)).length
        ≤ 1) ∧
    (∃ body c,
      (main env conv0 files animations models filter fbxFileName).2.trace =
        body ++ [Event.Save c] ∧
      saves body = [] ∧ live body = []) := by
  rw [main_eq env conv0 files animations models filter fbxFileName h]
  refine ⟨docCall_mainTrace env conv0 files animations models filter fbxFileName,
    count_mainTrace env conv0 files animations models filter fbxFileName, ?_, ?_⟩
  · have hq : Quiet (mainTrace env conv0 files animations models filter fbxFileName) := by
      rw [mainTrace_eq_body]
      exact quiet_append _ _
        (quiet_mainBody env conv0 files animations models filter fbxFileName)
        (quiet_single _ (fun _ => rfl))
    exact hq.2
  · exact ⟨mainBody env conv0 files animations models filter fbxFileName, _,
      mainTrace_eq_body env conv0 files animations models filter fbxFileName,
      saves_mainBody env conv0 files animations models filter fbxFileName,
      (quiet_mainBody env conv0 files animations models filter fbxFileName).1⟩

theorem documents_released_after_merge_witness :
    (["m.msh"] ≠ [] ∨ ([] : List String) ≠ [] ∨ ["a.msh"] ≠ []) ∧
    (main sampleEnv sampleConv [] ["a.msh"] ["m.msh"] [] "").2.trace.filterMap Event.docCall =
      [DocCall.create 0, DocCall.read 0 "m.msh", DocCall.merge 0, DocCall.destroy 0,
       DocCall.create 1, DocCall.read 1 "a.msh", DocCall.merge 1, DocCall.destroy 1,
       DocCall.save] :=
  ⟨by decide,
   (documents_released_after_merge sampleEnv sampleConv [] ["a.msh"] ["m.msh"] [] ""
     (by decide)).1⟩

end MSH2FBX
